import Mathlib

/-!
Verification development for the valkyrie-fs read-path cache-and-prefetch
engine. The definitions below are a shallow embedding of the C++ sources:

* `src/src/cache_manager.cpp` / `.hpp` — the two-zone chunked cache
  (`CacheManager`, `insert_chunk`, `access`, eviction);
* `src/src/thread_safe_queue.hpp` — the priority queue built on
  `std::priority_queue` (modelled as the binary heap of the deployed
  libstdc++ `push_heap` / `pop_heap` algorithms);
* `src/src/s3_worker_pool.cpp` — the fetcher pool (submit / shutdown /
  worker loop, download semantics of range GETs);
* `src/src/predictor.cpp` (in `s3_worker_pool.cpp` concatenation) — the
  pattern predictor (`predict_next_sequential`, `predict_and_prefetch`,
  `on_file_accessed`);
* `src/src/fuse_ops.cpp` — the read orchestrator (`fuse_ops::read`) and
  `open`.

Machine integers are modelled as `Nat` with explicit wrap-around (`2 ^ 64`)
where the C++ `size_t` arithmetic can underflow. Stateful code is explicit
state passing; the wall clock is threaded as a `now : Nat` parameter.
-/

namespace Valkyrie

/-- Priority bands, `types.hpp`: `enum class Priority { URGENT, NORMAL, BACKGROUND }`.
The numeric enum value (URGENT = 0 is the most important). -/
inductive Priority where
  | urgent
  | normal
  | background
deriving DecidableEq

/-- Numeric value of the C++ enum `Priority` (URGENT = 0, NORMAL = 1, BACKGROUND = 2). -/
def prioNat : Priority → Nat
  | .urgent => 0
  | .normal => 1
  | .background => 2

/-- Cache zones, `types.hpp`: `enum class CacheZone { HOT, PREFETCH }`. -/
inductive CacheZone where
  | hot
  | prefetch
deriving DecidableEq

/-- `DEFAULT_CHUNK_SIZE = 4 * 1024 * 1024` from `types.hpp`. -/
def DEFAULT_CHUNK_SIZE : Nat := 4 * 1024 * 1024

/-- `UINT64_MAX`, the sentinel used by `CacheManager::evict_lru_hot`. -/
def UINT64_MAX : Nat := 18446744073709551615

/-- A cached chunk (`struct Chunk` in `cache_manager.hpp`): payload bytes and
the microsecond access timestamp. Bytes are `Nat` values (< 256 in any real
run; nothing below depends on the bound). -/
structure Chunk where
  data : List Nat
  last_access_time : Nat
deriving DecidableEq

/-- A per-key record (`struct FileEntry`): chunk map (offset-keyed association
list mirroring `std::map<size_t, Chunk>`) and the zone tag. -/
structure FileEntry where
  s3_key : String
  chunks : List (Nat × Chunk)
  zone : CacheZone
deriving DecidableEq

/-- The cache state (`class CacheManager`): size accounting, the key → entry
map (association list mirroring the `unordered_map`; every mutation below
preserves key uniqueness), and the two zone bookkeeping lists. -/
structure CacheManager where
  max_size : Nat
  current_size : Nat
  files : List (String × FileEntry)
  hot_lru : List String
  prefetch_fifo : List String
deriving DecidableEq

/-- Fresh cache, `CacheManager::CacheManager(max_size_bytes)`. -/
def emptyCache (max : Nat) : CacheManager :=
  { max_size := max, current_size := 0, files := [], hot_lru := [], prefetch_fifo := [] }

/-- First-occurrence lookup in the file map (`files_.find(key)`). -/
def findFile : List (String × FileEntry) → String → Option FileEntry
  | [], _ => none
  | (k', e) :: t, k => if k' = k then some e else findFile t k

/-- Replace the (first) entry stored under `k` (in-place mutation through the
`shared_ptr` in the C++). -/
def updateFile : List (String × FileEntry) → String → FileEntry → List (String × FileEntry)
  | [], _, _ => []
  | (k', e') :: t, k, e => if k' = k then (k', e) :: t else (k', e') :: updateFile t k e

/-- Remove the entry stored under `k` (`files_.erase(it)`). -/
def eraseFile : List (String × FileEntry) → String → List (String × FileEntry)
  | [], _ => []
  | (k', e') :: t, k => if k' = k then t else (k', e') :: eraseFile t k

/-- Chunk lookup by offset (`chunks.find(offset)`). -/
def findChunk : List (Nat × Chunk) → Nat → Option Chunk
  | [], _ => none
  | (o, c) :: t, off => if o = off then some c else findChunk t off

/-- Store-or-replace a chunk at an offset (`chunks[offset] = Chunk(data)`). -/
def setChunk : List (Nat × Chunk) → Nat → Chunk → List (Nat × Chunk)
  | [], off, ch => [(off, ch)]
  | (o, c) :: t, off, ch => if o = off then (off, ch) :: t else (o, c) :: setChunk t off ch

/-- Remove the first occurrence of a key from a zone list
(`std::find` + `erase` on the `std::vector<std::string>`). -/
def eraseKey : List String → String → List String
  | [], _ => []
  | k' :: t, k => if k' = k then t else k' :: eraseKey t k

/-- `CacheManager::calculate_file_size`: sum of the byte lengths of the
entry's chunks. -/
def fileSize (e : FileEntry) : Nat :=
  (e.chunks.map (fun p => p.2.data.length)).sum

/-- Sum of the byte lengths of every chunk present in the cache (the quantity
the accounting counter `current_size_` is supposed to track). -/
def totalChunkBytes (c : CacheManager) : Nat :=
  (c.files.map (fun p => fileSize p.2)).sum

/-- `CacheManager::evict_fifo_prefetch`: drop the oldest prefetch key,
erase its entry and subtract its size. -/
def evict_fifo_prefetch (c : CacheManager) : CacheManager :=
  match c.prefetch_fifo with
  | [] => c
  | k :: rest =>
    match findFile c.files k with
    | some e =>
      { c with prefetch_fifo := rest
             , files := eraseFile c.files k
             , current_size := c.current_size - fileSize e }
    | none => { c with prefetch_fifo := rest }

/-- The scan inside `CacheManager::evict_lru_hot` over one entry's chunks:
tracks the smallest access time seen and the key that holds it. -/
def scanChunks (k : String) : List (Nat × Chunk) → Option String × Nat → Option String × Nat
  | [], acc => acc
  | (_, ch) :: t, (cur, oldest) =>
    if ch.last_access_time < oldest then scanChunks k t (some k, ch.last_access_time)
    else scanChunks k t (cur, oldest)

/-- The outer scan of `evict_lru_hot` over `hot_lru_`, skipping keys with no
file entry. -/
def scanLru (files : List (String × FileEntry)) : List String → Option String × Nat → Option String × Nat
  | [], acc => acc
  | k :: t, acc =>
    match findFile files k with
    | none => scanLru files t acc
    | some e => scanLru files t (scanChunks k e.chunks acc)

/-- `CacheManager::evict_lru_hot`: evict the HOT entry whose oldest chunk
access time is smallest. The C++ guard `!lru_key.empty()` is kept: an empty
selected key performs no eviction. -/
def evict_lru_hot (c : CacheManager) : CacheManager :=
  match (scanLru c.files c.hot_lru (none, UINT64_MAX)).1 with
  | none => c
  | some k =>
    if k = "" then c
    else
      match findFile c.files k with
      | some e =>
        { c with files := eraseFile c.files k
               , current_size := c.current_size - fileSize e
               , hot_lru := eraseKey c.hot_lru k }
      | none => c

/-- The `while` loop of `CacheManager::evict_if_needed`, with explicit fuel.
Each iteration removes one key from one of the two zone lists, so the fuel
passed by `evict_if_needed` (the sum of the list lengths) is never the
limiting factor; in the degenerate state where `evict_lru_hot` makes no
progress (a state the public operations never produce) the C++ loop would
spin forever and the model stops instead. -/
def evictLoop : Nat → CacheManager → Nat → CacheManager
  | 0, c, _ => c
  | fuel + 1, c, req =>
    if c.current_size + req > c.max_size then
      if c.prefetch_fifo ≠ [] then evictLoop fuel (evict_fifo_prefetch c) req
      else if c.hot_lru ≠ [] then
        if (evict_lru_hot c).hot_lru.length < c.hot_lru.length then
          evictLoop fuel (evict_lru_hot c) req
        else evict_lru_hot c
      else c
    else c

/-- `CacheManager::evict_if_needed(required_space)`. -/
def evict_if_needed (c : CacheManager) (req : Nat) : CacheManager :=
  evictLoop (c.prefetch_fifo.length + c.hot_lru.length) c req

/-- The body of `CacheManager::insert_chunk` after the eviction pass:
create the FileEntry (placing the key in the argument zone's list) if
absent, otherwise store-or-replace the chunk; then the faithful accounting
`current_size_ += data.size()`, unconditional even when
`chunks[offset] = Chunk(data)` replaced an existing chunk. -/
def insertPhase (c : CacheManager) (key : String) (off : Nat) (data : List Nat)
    (zone : CacheZone) (now : Nat) : CacheManager :=
  match findFile c.files key with
  | none =>
    { c with
      files := c.files ++ [(key, ⟨key, [(off, ⟨data, now⟩)], zone⟩)],
      hot_lru := if zone = .hot then c.hot_lru ++ [key] else c.hot_lru,
      prefetch_fifo := if zone = .prefetch then c.prefetch_fifo ++ [key] else c.prefetch_fifo,
      current_size := c.current_size + data.length }
  | some e =>
    { c with
      files := updateFile c.files key { e with chunks := setChunk e.chunks off ⟨data, now⟩ },
      current_size := c.current_size + data.length }

/-- `CacheManager::insert_chunk(key, offset, data, zone)`:
`evict_if_needed(data.size())` then the insertion body. -/
def insert_chunk (c : CacheManager) (key : String) (off : Nat) (data : List Nat)
    (zone : CacheZone) (now : Nat) : CacheManager :=
  insertPhase (evict_if_needed c data.length) key off data zone now

/-- `CacheManager::get_chunk`. -/
def get_chunk (c : CacheManager) (key : String) (off : Nat) : Option Chunk :=
  (findFile c.files key).bind (fun e => findChunk e.chunks off)

/-- The chunk-timestamp refresh inside `CacheManager::access`: update the
chunk's `last_access_time` if the chunk exists (zone untouched). -/
def accessEntry (e : FileEntry) (off now : Nat) : FileEntry :=
  { e with chunks :=
      match findChunk e.chunks off with
      | some ch => setChunk e.chunks off { ch with last_access_time := now }
      | none => e.chunks }

/-- `CacheManager::access(key, offset)` (aka `touch_access` in the spec):
refresh the chunk's access time, and promote a PREFETCH entry to HOT, moving
the key from `prefetch_fifo_` to the tail of `hot_lru_`. -/
def access (c : CacheManager) (key : String) (off : Nat) (now : Nat) : CacheManager :=
  match findFile c.files key with
  | none => c
  | some e =>
    if (accessEntry e off now).zone = .prefetch then
      { c with
        files := updateFile c.files key { accessEntry e off now with zone := .hot },
        prefetch_fifo := eraseKey c.prefetch_fifo key,
        hot_lru := c.hot_lru ++ [key] }
    else
      { c with files := updateFile c.files key (accessEntry e off now) }

/-- `CacheManager::contains`. -/
def contains (c : CacheManager) (key : String) : Bool :=
  (findFile c.files key).isSome

/-- `CacheManager::get_zone`; the C++ throws on a missing key, modelled as
`none`. -/
def get_zone (c : CacheManager) (key : String) : Option CacheZone :=
  (findFile c.files key).map (fun e => e.zone)

/-!
### The priority queue (`thread_safe_queue.hpp`)

`ThreadSafeQueue` stores `QueueItem`s in a `std::priority_queue` whose
comparator is `QueueItem::operator<`, i.e. `a < b ⇔ a.priority > b.priority`
on the numeric enum values, so URGENT items are the heap maximum. The
`data` field is abstracted to a sequence number recording push order.
`std::priority_queue` is a binary heap on a vector; `heapPush` / `heapPop`
implement the `push_heap` / `pop_heap` algorithms of the deployed libstdc++
(`bits/stl_heap.h`), which is what decides the order of equal-priority
items — the comparator itself contains no tie-break.
-/

/-- A queue element: payload (sequence number of the push) and priority. -/
structure QItem where
  data : Nat
  priority : Priority
deriving DecidableEq

instance : Inhabited QItem := ⟨⟨0, .normal⟩⟩

/-- The comparator `QueueItem::operator<`:
`return priority > other.priority` on the enum values. -/
def qlt (a b : QItem) : Bool :=
  decide (prioNat b.priority < prioNat a.priority)

/-- Element at index `i` of the heap vector (default-padded). -/
def getE (l : List QItem) (i : Nat) : QItem :=
  l.getD i default

/-- Write at index `i` of the heap vector. -/
def setAt : List QItem → Nat → QItem → List QItem
  | [], _, _ => []
  | _ :: t, 0, x => x :: t
  | h :: t, n + 1, x => h :: setAt t n x

/-- `std::__push_heap`: sift the hole up while the parent compares less than
the value, then drop the value in. Fuel-driven (the hole index strictly
decreases, so fuel `hole + 1` is exact). -/
def siftUpF : Nat → List QItem → Nat → Nat → QItem → List QItem
  | 0, l, hole, _, v => setAt l hole v
  | f + 1, l, hole, top, v =>
    if top < hole ∧ qlt (getE l ((hole - 1) / 2)) v then
      siftUpF f (setAt l hole (getE l ((hole - 1) / 2))) ((hole - 1) / 2) top v
    else setAt l hole v

def siftUp (l : List QItem) (hole top : Nat) (v : QItem) : List QItem :=
  siftUpF (hole + 1) l hole top v

/-- `priority_queue::push`: `push_back` then `push_heap`. -/
def heapPush (l : List QItem) (x : QItem) : List QItem :=
  let l1 := l ++ [x]
  siftUp l1 (l1.length - 1) 0 x

/-- The descend-to-leaf loop of `std::__adjust_heap`: move the larger child
up into the hole until the hole reaches the bottom level. Returns the
vector, the hole index and the `secondChild` cursor. Fuel-driven; the cursor
at least doubles every step so fuel `len + 1` is ample. -/
def adjustLoopF : Nat → List QItem → Nat → Nat → Nat → List QItem × Nat × Nat
  | 0, l, hole, sc, _ => (l, hole, sc)
  | f + 1, l, hole, sc, len =>
    if sc < (len - 1) / 2 then
      let sc2 := 2 * (sc + 1)
      let sc3 := if qlt (getE l sc2) (getE l (sc2 - 1)) then sc2 - 1 else sc2
      adjustLoopF f (setAt l hole (getE l sc3)) sc3 sc3 len
    else (l, hole, sc)

/-- `std::__adjust_heap(first, holeIndex, len, value)` of libstdc++:
descend to a leaf, handle the single-child bottom case, then sift up. -/
def adjustHeap (l : List QItem) (hole len : Nat) (v : QItem) : List QItem :=
  let r := adjustLoopF (len + 1) l hole hole len
  let l1 := r.1
  let h1 := r.2.1
  let sc1 := r.2.2
  let step :=
    if len % 2 = 0 ∧ sc1 = (len - 2) / 2 then
      let sc2 := 2 * (sc1 + 1)
      (setAt l1 h1 (getE l1 (sc2 - 1)), sc2 - 1)
    else (l1, h1)
  siftUp step.1 step.2 hole v

/-- `priority_queue::pop`: `pop_heap(begin, end)` then `pop_back`. For
`n ≥ 2`, `pop_heap` moves the last element into a hole at the root via
`__adjust_heap` and parks the old root at the back, which `pop_back` drops. -/
def heapPop (l : List QItem) : List QItem :=
  match l with
  | [] => []
  | [_] => []
  | _ =>
    let n := l.length
    let v := getE l (n - 1)
    let l1 := setAt l (n - 1) (getE l 0)
    (adjustHeap l1 0 (n - 1) v).dropLast

/-- `priority_queue::top` (what `ThreadSafeQueue::pop` returns). -/
def heapTop (l : List QItem) : Option QItem :=
  l.head?

/-- The binary max-heap property w.r.t. the comparator: no parent compares
less than its child, i.e. parents carry numerically smaller-or-equal enum
values (higher or equal importance). This is the structural invariant
`std::priority_queue` maintains for its vector. -/
def isHeap (l : List QItem) : Prop :=
  ∀ i, i < l.length → 0 < i →
    prioNat (getE l ((i - 1) / 2)).priority ≤ prioNat (getE l i).priority

instance (l : List QItem) : Decidable (isHeap l) := by
  unfold isHeap
  infer_instance

/-!
### The predictor (`predictor.cpp`)

`Predictor::predict_next_sequential` matches the full key against the
regex `^(.*?)(\d+)(\..*)$` (non-greedy prefix, greedy digits, suffix that
must begin with a dot). For an all-digit middle group the backtracking
semantics of that regex pick the *leftmost maximal digit run that is
immediately followed by a dot*: a match attempt starting inside or at a
run not followed by a dot fails for every split of that run (the suffix
group would have to begin with a digit), so the lazy prefix skips whole
runs until one followed by a dot is found, and the greedy digits group
then takes all of it. `findRunF` implements exactly that.
-/

/-- Split a leading maximal digit run off a character list. -/
def splitRun : List Char → List Char × List Char
  | [] => ([], [])
  | c :: t =>
    if c.isDigit then (c :: (splitRun t).1, (splitRun t).2)
    else ([], c :: t)

/-- Leftmost maximal digit run immediately followed by a dot:
returns `(pre, digits, suffix-starting-with-dot)`. Fuel-driven; the fuel
used by `findRun` always suffices. -/
def findRunF : Nat → List Char → Option (List Char × List Char × List Char)
  | 0, _ => none
  | _ + 1, [] => none
  | f + 1, c :: t =>
    if c.isDigit then
      let run := c :: (splitRun t).1
      let rest := (splitRun t).2
      match rest with
      | '.' :: _ => some ([], run, rest)
      | _ =>
        match findRunF f rest with
        | some (p, d, s) => some (run ++ p, d, s)
        | none => none
    else
      match findRunF f t with
      | some (p, d, s) => some (c :: p, d, s)
      | none => none

def findRun (cs : List Char) : Option (List Char × List Char × List Char) :=
  findRunF (cs.length + 1) cs

/-- Value of a digit string. -/
def digitsToNat (ds : List Char) : Nat :=
  ds.foldl (fun a c => a * 10 + (c.toNat - 48)) 0

/-- `std::stoi` on an all-digit string: the value, or `none` for the
`out_of_range` exception beyond `INT_MAX` (caught in the C++, which then
returns no prediction). -/
def stoiDigits (ds : List Char) : Option Nat :=
  if digitsToNat ds ≤ 2147483647 then some (digitsToNat ds) else none

/-- `oss << setw(padding) << setfill('0') << n`: decimal digits of `n`,
zero-padded on the left to `width` (wider numbers print in full). -/
def padNum (n width : Nat) : List Char :=
  let s := (toString n).toList
  List.replicate (width - s.length) '0' ++ s

/-- `Predictor::predict_next_sequential(filename)`. -/
def predict_next_sequential (filename : String) : Option String :=
  match findRun filename.toList with
  | none => none
  | some (pre, ds, suf) =>
    match stoiDigits ds with
    | none => none
    | some n => some (String.mk (pre ++ padNum (n + 1) ds.length ++ suf))

/-- The chained candidate generation in `Predictor::predict_and_prefetch`
(pattern branch): each successor is pattern-derived from the previous one;
a failed match breaks the loop. -/
def chainNexts (k : String) : Nat → List String
  | 0 => []
  | n + 1 =>
    match predict_next_sequential k with
    | none => []
    | some nk => nk :: chainNexts nk n

/-- `Predictor::Stats` (atomic counters). -/
structure PredStats where
  predictions_made : Nat
  prefetches_issued : Nat
  pattern_hits : Nat
  manifest_hits : Nat
deriving DecidableEq

/-- The predictor's mutable state: configuration, the single most-recent
access slot `last_accessed_`, and the in-flight duplicate filter. -/
structure PredState where
  lookahead : Nat
  manifest_mode : Bool
  manifest : List String
  last_accessed : String
  in_flight : List String
  stats : PredStats
deriving DecidableEq

/-- A fetch request (`struct PrefetchTask`, minus the completion handle). -/
structure Task where
  key : String
  offset : Nat
  size : Nat
  priority : Priority
deriving DecidableEq

/-- `Predictor::on_file_accessed`: overwrite the one last-accessed slot. -/
def on_file_accessed (p : PredState) (k : String) : PredState :=
  { p with last_accessed := k }

/-- `Predictor::find_in_manifest`: index of the first occurrence. -/
def findIdx : List String → String → Option Nat
  | [], _ => none
  | k' :: t, k => if k' = k then some 0 else (findIdx t k).map (fun i => i + 1)

/-- The issue loop at the end of `Predictor::predict_and_prefetch`:
skip keys already cached (`cc`) or in flight, otherwise record the key
in flight and submit a NORMAL task for chunk 0. Returns the new state and
the submitted tasks in order. -/
def issueLoop (cc : String → Bool) : List String → PredState → PredState × List Task
  | [], p => (p, [])
  | k :: rest, p =>
    if cc k then issueLoop cc rest p
    else if k ∈ p.in_flight then issueLoop cc rest p
    else
      let p1 :=
        { p with
          in_flight := p.in_flight ++ [k],
          stats := { p.stats with prefetches_issued := p.stats.prefetches_issued + 1 } }
      let r := issueLoop cc rest p1
      (r.1, ⟨k, 0, DEFAULT_CHUNK_SIZE, .normal⟩ :: r.2)

/-- `stats_.predictions_made++`. -/
def bumpPredictions (p : PredState) : PredState :=
  { p with stats := { p.stats with predictions_made := p.stats.predictions_made + 1 } }

/-- `stats_.pattern_hits++`. -/
def bumpPattern (p : PredState) : PredState :=
  { p with stats := { p.stats with pattern_hits := p.stats.pattern_hits + 1 } }

/-- `stats_.manifest_hits++`. -/
def bumpManifest (p : PredState) : PredState :=
  { p with stats := { p.stats with manifest_hits := p.stats.manifest_hits + 1 } }

/-- The manifest-mode candidate list: entries at indices `pos + 1` to
`pos + lookahead` that exist. -/
def manifestTargets (p : PredState) (pos : Nat) : List String :=
  (List.range p.lookahead).filterMap (fun i => p.manifest.get? (pos + i + 1))

/-- `Predictor::predict_and_prefetch(s3_key)`; `cc` is `cache_.contains`. -/
def predict_and_prefetch (p : PredState) (k : String) (cc : String → Bool) :
    PredState × List Task :=
  if p.manifest_mode then
    match findIdx p.manifest k with
    | none => (bumpPredictions p, [])
    | some pos =>
      if manifestTargets p pos ≠ [] then
        issueLoop cc (manifestTargets p pos) (bumpManifest (bumpPredictions p))
      else
        issueLoop cc (manifestTargets p pos) (bumpPredictions p)
  else
    if chainNexts k p.lookahead ≠ [] then
      issueLoop cc (chainNexts k p.lookahead) (bumpPattern (bumpPredictions p))
    else
      issueLoop cc (chainNexts k p.lookahead) (bumpPredictions p)

/-- `Predictor::cleanup_completed_downloads`: drop in-flight entries whose
future is ready (`ready`), success or failure alike. -/
def cleanup_completed (p : PredState) (ready : String → Bool) : PredState :=
  { p with in_flight := p.in_flight.filter (fun k => ! ready k) }

/-- One iteration of `Predictor::predictor_loop`: cleanup, then read the
(uncleared) `last_accessed_` slot and predict from it; an empty slot skips. -/
def sweepOnce (p : PredState) (ready cc : String → Bool) : PredState × List Task :=
  if (cleanup_completed p ready).last_accessed = "" then (cleanup_completed p ready, [])
  else
    predict_and_prefetch (cleanup_completed p ready)
      (cleanup_completed p ready).last_accessed cc

/-!
### Spec-side successor derivation for the pattern claim

The claim derives successors from the *trailing* digit run of the key's
*basename*. The definitions below follow that wording (they are the
comparison point, not a translation of the source).
-/

/-- Split a key into directory part (up to and including the last slash)
and basename, per the claim's wording. -/
def spec_basename_split (k : String) : List Char × List Char :=
  let rev := k.toList.reverse
  ((rev.dropWhile (fun c => c ≠ '/')).reverse, (rev.takeWhile (fun c => c ≠ '/')).reverse)

/-- Last maximal digit run of a character list, as
`(pre, digits, suffix)`; no constraint on the suffix. Fuel-driven. -/
def lastRunF : Nat → List Char → Option (List Char × List Char × List Char)
  | 0, _ => none
  | _ + 1, [] => none
  | f + 1, c :: t =>
    if c.isDigit then
      let run := c :: (splitRun t).1
      let rest := (splitRun t).2
      match lastRunF f rest with
      | some (p, d, s) => some (run ++ p, d, s)
      | none => some ([], run, rest)
    else
      match lastRunF f t with
      | some (p, d, s) => some (c :: p, d, s)
      | none => none

/-- Spec-side single successor: width-preserving increment of the trailing
digit run of the basename, directory part untouched. -/
def spec_trailing_next (k : String) : Option String :=
  let parts := spec_basename_split k
  match lastRunF (parts.2.length + 1) parts.2 with
  | none => none
  | some (p, ds, s) =>
    some (String.mk (parts.1 ++ p ++ padNum (digitsToNat ds + 1) ds.length ++ s))

/-- Spec-side chained successors for a lookahead. -/
def spec_trailing_successors (k : String) : Nat → List String
  | 0 => []
  | n + 1 =>
    match spec_trailing_next k with
    | none => []
    | some nk => nk :: spec_trailing_successors nk n

/-!
### The fetcher pool lifecycle (`s3_worker_pool.cpp`, `thread_safe_queue.hpp`)

Interleaved executions of `submit` / `shutdown` / the worker loop are
modelled as a transition system. Queued tasks are identified by submission
ids; a completion handle is `none` while its `std::promise` has not been
fulfilled and `some b` once `set_value(b)` ran. A promise destroyed while
unfulfilled leaves its `shared_future` holding `broken_promise`, i.e. the
handle stays `none` — the model has no transition that turns an abandoned
handle into a value, exactly like the code, whose only `set_value` call
sits in `worker_loop` after a successful `pop`. Queue order is abstracted
(which pending task a worker takes does not matter for the shutdown
claims). `workerRun` is a worker completing one popped task (the C++ pop
returns an item whenever the queue is non-empty, shut down or not);
`workerExit` is a worker observing the shutdown flag and leaving, which
the code permits as soon as the flag is set. -/
structure PoolState where
  queue : List Nat
  shutdown : Bool
  workers : Nat
  handles : List (Nat × Option Bool)
  nextId : Nat
deriving DecidableEq

/-- Pool transitions. -/
inductive PoolOp where
  | submit (key : String) (off : Nat) (sz : Nat) (prio : Priority)
  | shutdownSignal
  | workerRun (result : Bool)
  | workerExit
deriving DecidableEq

/-- Fulfil the promise of task `id` (`task.completion->set_value(b)`). -/
def setHandle : List (Nat × Option Bool) → Nat → Bool → List (Nat × Option Bool)
  | [], _, _ => []
  | (i, h) :: t, id, b => if i = id then (i, some b) :: t else (i, h) :: setHandle t id b

def lookupHandle : List (Nat × Option Bool) → Nat → Option (Option Bool)
  | [], _ => none
  | (i, h) :: t, id => if i = id then some h else lookupHandle t id

/-- One pool transition. `submit` always creates the handle
(`task.completion->get_future()`), but `ThreadSafeQueue::push` silently
drops the task once `shutdown_flag_` is set. -/
def poolStep (s : PoolState) : PoolOp → PoolState
  | .submit _ _ _ _ =>
    { s with
      handles := s.handles ++ [(s.nextId, none)],
      nextId := s.nextId + 1,
      queue := if s.shutdown then s.queue else s.queue ++ [s.nextId] }
  | .shutdownSignal => { s with shutdown := true }
  | .workerRun b =>
    if s.workers = 0 then s
    else
      match s.queue with
      | [] => s
      | id :: rest => { s with queue := rest, handles := setHandle s.handles id b }
  | .workerExit =>
    if s.shutdown ∧ s.workers ≠ 0 then { s with workers := s.workers - 1 } else s

def runPool (s : PoolState) (ops : List PoolOp) : PoolState :=
  ops.foldl poolStep s

/-- A pool as constructed with `num_workers = w` before `start`/traffic. -/
def initPool (w : Nat) : PoolState :=
  { queue := [], shutdown := false, workers := w, handles := [], nextId := 0 }

/-- A fully shut-down pool in which task `id` holds an unfulfilled handle:
shutdown signalled, all workers exited, `id` already allocated, promise not
set. -/
def PoolDead (s : PoolState) (id : Nat) : Prop :=
  s.shutdown = true ∧ s.workers = 0 ∧ id < s.nextId ∧ lookupHandle s.handles id = some none

/-!
### The read orchestrator (`fuse_ops.cpp`)

`fuse_ops::read` is modelled against an immutable object store
`obj : String → Option (List Nat)`. A range GET `bytes=off..off+sz-1`
succeeds with the clipped byte range iff the object exists and `off` is
inside it (an out-of-range first byte is an HTTP 416 error, and
`download_chunk` also fails a body of zero bytes). The function is
fuel-driven: `none` means the recursion did not terminate within the given
fuel. `events` records the observable actions in order; an
`FsEvent.notifyPredictor` event is what a `Predictor::on_file_accessed`
call would emit — `fuse_ops::read` contains no such call, `fuse_ops::open`
does. The `size_t` subtraction `chunk.data.size() - offset_in_chunk` is
modelled with its wrap-around at `2 ^ 64`; bytes the C++ `memcpy` would
read out of bounds (indeterminate values) are modelled as zeros.
-/

inductive FsEvent where
  | cacheProbe (key : String) (off : Nat)
  | urgentFetch (key : String) (off : Nat) (ok : Bool)
  | touch (key : String) (off : Nat)
  | notifyPredictor (key : String)
  | copy (n : Nat)
deriving DecidableEq

structure ReadOut where
  ret : Int
  buf : List Nat
  cache : CacheManager
  events : List FsEvent
deriving DecidableEq

def EIO_code : Int := -5

def EACCES : Int := -13

/-- Clipped inclusive range GET against the object store. -/
def rangeGet (obj : Option (List Nat)) (off sz : Nat) : Option (List Nat) :=
  match obj with
  | none => none
  | some content =>
    if off < content.length then some ((content.drop off).take sz) else none

/-- `chunk_offset = (offset / CHUNK_SIZE) * CHUNK_SIZE`. -/
def chunkOff (offset : Nat) : Nat :=
  offset / DEFAULT_CHUNK_SIZE * DEFAULT_CHUNK_SIZE

/-- `offset_in_chunk = offset % CHUNK_SIZE`. -/
def inChunk (offset : Nat) : Nat :=
  offset % DEFAULT_CHUNK_SIZE

/-- `available = chunk.data.size() - offset_in_chunk` in `size_t`
arithmetic: wraps around at `2 ^ 64` when `offset_in_chunk` exceeds the
chunk length (a short tail chunk probed past end-of-file). -/
def chunkAvail (ch : Chunk) (ic : Nat) : Nat :=
  if ic ≤ ch.data.length then ch.data.length - ic else 2 ^ 64 - (ic - ch.data.length)

/-- `to_copy = min(size, available)`. -/
def toCopy (size : Nat) (ch : Chunk) (ic : Nat) : Nat :=
  min size (chunkAvail ch ic)

/-- The bytes `memcpy(buf, chunk.data.data() + offset_in_chunk, to_copy)`
deposits: the in-bounds part of the chunk, padded with zeros standing for
the indeterminate out-of-bounds memory read when `to_copy` reaches past the
chunk's storage. -/
def bytesRead (ch : Chunk) (ic n : Nat) : List Nat :=
  (ch.data.drop ic).take n ++ List.replicate (n - ((ch.data.drop ic).take n).length) 0

/-- The probe / urgent-fetch / re-probe prologue of `fuse_ops::read`
(steps 3–4 of the orchestrator): either a chunk plus the updated cache, or
a finished erroneous `ReadOut`. -/
def probeChunk (obj : String → Option (List Nat)) (now : Nat) (c : CacheManager)
    (key : String) (chunk_off : Nat) : Except ReadOut (CacheManager × Chunk × List FsEvent) :=
  match get_chunk c key chunk_off with
  | some ch => .ok (c, ch, [.cacheProbe key chunk_off])
  | none =>
    match rangeGet (obj key) chunk_off DEFAULT_CHUNK_SIZE with
    | none => .error ⟨EIO_code, [], c, [.cacheProbe key chunk_off, .urgentFetch key chunk_off false]⟩
    | some data =>
      if data = [] then
        .error ⟨EIO_code, [], c, [.cacheProbe key chunk_off, .urgentFetch key chunk_off false]⟩
      else
        match get_chunk (insert_chunk c key chunk_off data .hot now) key chunk_off with
        | none =>
          .error ⟨EIO_code, [], insert_chunk c key chunk_off data .hot now,
            [.cacheProbe key chunk_off, .urgentFetch key chunk_off true, .cacheProbe key chunk_off]⟩
        | some ch =>
          .ok (insert_chunk c key chunk_off data .hot now, ch,
            [.cacheProbe key chunk_off, .urgentFetch key chunk_off true, .cacheProbe key chunk_off])

/-- `fuse_ops::read(path, buf, size, offset)` (with `key` already stripped
of the leading slash). Faithful to the source: `available` uses the
wrapping `size_t` subtraction (`chunkAvail`), and the recursion into the
next chunk is guarded only by `to_copy < size`. -/
def fuse_read (obj : String → Option (List Nat)) (now : Nat) :
    Nat → CacheManager → String → Nat → Nat → Option ReadOut
  | 0, _, _, _, _ => none
  | fuel + 1, c, key, size, offset =>
    match probeChunk obj now c key (chunkOff offset) with
    | .error r => some r
    | .ok (c1, ch, ev) =>
      if toCopy size ch (inChunk offset) < size then
        match fuse_read obj now fuel (access c1 key (chunkOff offset) now) key
            (size - toCopy size ch (inChunk offset)) (offset + toCopy size ch (inChunk offset)) with
        | none => none
        | some r =>
          if r.ret < 0 then
            some ⟨r.ret, bytesRead ch (inChunk offset) (toCopy size ch (inChunk offset)) ++ r.buf,
              r.cache,
              ev ++ [.touch key (chunkOff offset), .copy (toCopy size ch (inChunk offset))]
                ++ r.events⟩
          else
            some ⟨(toCopy size ch (inChunk offset) : Int) + r.ret,
              bytesRead ch (inChunk offset) (toCopy size ch (inChunk offset)) ++ r.buf, r.cache,
              ev ++ [.touch key (chunkOff offset), .copy (toCopy size ch (inChunk offset))]
                ++ r.events⟩
      else
        some ⟨(toCopy size ch (inChunk offset) : Int),
          bytesRead ch (inChunk offset) (toCopy size ch (inChunk offset)),
          access c1 key (chunkOff offset) now,
          ev ++ [.touch key (chunkOff offset), .copy (toCopy size ch (inChunk offset))]⟩

/-- Events of a read (`[]` for the fuel-exhausted marker). -/
def readEvents (obj : String → Option (List Nat)) (now fuel : Nat) (c : CacheManager)
    (key : String) (size offset : Nat) : List FsEvent :=
  match fuse_read obj now fuel c key size offset with
  | none => []
  | some r => r.events

/-- `path_to_s3_key`: strip one leading slash. -/
def path_to_s3_key (path : String) : String :=
  match path.toList with
  | '/' :: rest => String.mk rest
  | _ => path

def lookupMeta : List (String × Nat) → String → Option Nat
  | [], _ => none
  | (k', n) :: t, k => if k' = k then some n else lookupMeta t k

structure OpenOut where
  ret : Int
  pred : PredState
  meta : List (String × Nat)
  events : List FsEvent
deriving DecidableEq

/-- `fuse_ops::open(path, fi)`: reject non-read-only opens with `EACCES`,
notify the predictor, register a 1 GiB placeholder size if the key is new. -/
def fuse_open (p : PredState) (meta : List (String × Nat)) (path : String)
    (read_only : Bool) : OpenOut :=
  if read_only then
    let key := path_to_s3_key path
    let p1 := on_file_accessed p key
    let meta1 :=
      match lookupMeta meta key with
      | some _ => meta
      | none => meta ++ [(key, 1073741824)]
    ⟨0, p1, meta1, [.notifyPredictor key]⟩
  else ⟨EACCES, p, meta, []⟩

/-!
### Cache operation sequences

The cache's public mutating interface as exercised by the system:
`insert_chunk` (from `S3WorkerPool::download_chunk`) and `access`
(from `fuse_ops::read`; `promote_to_hot` is `access(key, 0)`).
`ReachableCache` states are those produced from a fresh cache by some
sequence of these operations.
-/

inductive CacheOp where
  | insert (key : String) (off : Nat) (data : List Nat) (zone : CacheZone) (now : Nat)
  | touch (key : String) (off : Nat) (now : Nat)
deriving DecidableEq

def applyCacheOp (c : CacheManager) : CacheOp → CacheManager
  | .insert k off data z now => insert_chunk c k off data z now
  | .touch k off now => access c k off now

def runCache (c : CacheManager) (ops : List CacheOp) : CacheManager :=
  ops.foldl applyCacheOp c

def ReachableCache (c : CacheManager) : Prop :=
  ∃ (max : Nat) (ops : List CacheOp), c = runCache (emptyCache max) ops

/-- The structural invariant of reachable cache states: the file map has
unique keys, the two zone lists are duplicate-free, and every listed key
has an entry whose zone matches its list (whence spec invariant I2: a key
sits in exactly one of the two lists). -/
structure CacheInv (c : CacheManager) : Prop where
  filesNodup : (c.files.map Prod.fst).Nodup
  hotNodup : c.hot_lru.Nodup
  fifoNodup : c.prefetch_fifo.Nodup
  hotZone : ∀ k ∈ c.hot_lru, ∃ e, findFile c.files k = some e ∧ e.zone = .hot
  fifoZone : ∀ k ∈ c.prefetch_fifo, ∃ e, findFile c.files k = some e ∧ e.zone = .prefetch

/-- `object(key)[off : off + len]`: the slice of the immutable object-store
content a read is supposed to return. -/
def objectSlice (obj : String → Option (List Nat)) (key : String) (off len : Nat) : List Nat :=
  match obj key with
  | none => []
  | some content => (content.drop off).take len

/-!
### Concrete fixtures used by counterexamples and witnesses
-/

/-- An object store holding one two-byte object `x`. -/
def tailObj : String → Option (List Nat) :=
  fun k => if k = "x" then some [65, 66] else none

/-- The cache after the tail chunk of `x` (2 bytes at offset 0) has been
fetched and inserted HOT, as a demand read leaves it. -/
def tailCache : CacheManager :=
  insert_chunk (emptyCache 100) "x" 0 [65, 66] .hot 0

/-- One chunk of 2 bytes inserted for `a`. -/
def sizeBugCacheA : CacheManager :=
  insert_chunk (emptyCache 100) "a" 0 [1, 1] .hot 0

/-- The same `(key, offset)` re-inserted with 1 byte: the chunk is replaced
but `current_size_ += data.size()` ran a second time. -/
def sizeBugCacheB : CacheManager :=
  insert_chunk sizeBugCacheA "a" 0 [2] .hot 1

/-- A 2-byte cache holding key `a` as a 1-byte PREFETCH entry. -/
def resZoneA : CacheManager :=
  insert_chunk (emptyCache 2) "a" 0 [9] .prefetch 0

/-- Re-insert 3 bytes for the existing key `a` with zone HOT: the eviction
pass evicts `a` itself, and the entry is recreated with the argument zone. -/
def resZoneB : CacheManager :=
  insert_chunk resZoneA "a" 0 [5, 5, 5] .hot 1

/-- A cache holding key `z` as a PREFETCH entry (the C8 witness state). -/
def promoCache : CacheManager :=
  insert_chunk (emptyCache 100) "z" 0 [7] .prefetch 0

/-- Heap after pushing NORMAL seq 1, NORMAL seq 2, NORMAL seq 3, URGENT
seq 4 in that order. -/
def fifoHeap : List QItem :=
  heapPush (heapPush (heapPush (heapPush [] ⟨1, .normal⟩) ⟨2, .normal⟩) ⟨3, .normal⟩) ⟨4, .urgent⟩

/-- `fifoHeap` after one pop (which returns the URGENT task). -/
def fifoHeapPopped : List QItem :=
  heapPop fifoHeap

/-- A two-worker pool that received one NORMAL task, was shut down before
any worker popped it, and whose workers then exited. -/
def poolAfterShutdown : PoolState :=
  runPool (initPool 2)
    [.submit "k" 0 DEFAULT_CHUNK_SIZE .normal, .shutdownSignal, .workerExit, .workerExit]

/-- A fresh pattern-mode predictor with lookahead 3. -/
def predInit : PredState :=
  { lookahead := 3, manifest_mode := false, manifest := [], last_accessed := "",
    in_flight := [], stats := ⟨0, 0, 0, 0⟩ }

/-- `cache_.contains` of an empty cache. -/
def noneCached : String → Bool := fun _ => false

/-!
## Theorems

Helper lemmas come first, then one theorem (plus witness or
counterexample where required) per claim.
-/

/-- One unfolding of `fuse_read` at the end-of-file offset of the cached
short tail chunk: `to_copy = min 1 0 = 0 < size`, so the call recurses with
the very same key, size and offset (the access refresh at time 0 leaves
`tailCache` unchanged). -/
theorem read_at_eof_step (n : Nat) :
    fuse_read tailObj 0 (n + 1) tailCache "x" 1 2
      = match fuse_read tailObj 0 n tailCache "x" 1 2 with
        | none => none
        | some r =>
          if r.ret < 0 then
            some ⟨r.ret, [] ++ r.buf, r.cache,
              ([.cacheProbe "x" 0, .touch "x" 0, .copy 0] : List FsEvent) ++ r.events⟩
          else
            some ⟨((0 : Nat) : Int) + r.ret, [] ++ r.buf, r.cache,
              ([.cacheProbe "x" 0, .touch "x" 0, .copy 0] : List FsEvent) ++ r.events⟩ := rfl

/-- The self-recursion of the previous lemma never terminates: no amount of
fuel produces a result. -/
theorem read_at_eof_diverges : ∀ n, fuse_read tailObj 0 n tailCache "x" 1 2 = none
  | 0 => rfl
  | n + 1 => by rw [read_at_eof_step n, read_at_eof_diverges n]

/-- A read of 3 bytes at offset 0 of the 2-byte object copies the 2 cached
bytes and then recurses into the diverging end-of-file call. -/
theorem read_tail_step (n : Nat) :
    fuse_read tailObj 0 (n + 1) tailCache "x" 3 0
      = match fuse_read tailObj 0 n tailCache "x" 1 2 with
        | none => none
        | some r =>
          if r.ret < 0 then
            some ⟨r.ret, [65, 66] ++ r.buf, r.cache,
              ([.cacheProbe "x" 0, .touch "x" 0, .copy 2] : List FsEvent) ++ r.events⟩
          else
            some ⟨((2 : Nat) : Int) + r.ret, [65, 66] ++ r.buf, r.cache,
              ([.cacheProbe "x" 0, .touch "x" 0, .copy 2] : List FsEvent) ++ r.events⟩ := rfl

/-- Claim C2. The claim states that every `read` terminates returning
between 0 and `size` bytes, because the cross-chunk stitch recurses only
after a full `CHUNK_SIZE` chunk, so a read extending past end-of-file of an
object whose short tail chunk is cached returns the bytes up to EOF. The
code has no full-chunk guard: it recurses whenever `to_copy < size`. For
the 2-byte object `x` with its tail chunk cached, `read("x", size 3,
offset 0)` copies 2 bytes and then recurses at offset 2, where
`available = 0`, `to_copy = 0 < size` — the call recurses with unchanged
arguments and never terminates (the spec says it must return 2): for every
fuel bound the model yields the non-termination marker. -/
theorem read_past_eof_never_terminates :
    ∀ n, fuse_read tailObj 0 n tailCache "x" 3 0 = none
  | 0 => rfl
  | n + 1 => by rw [read_tail_step n, read_at_eof_diverges n]

/-- Claim C1. The claim states that every successfully returning read
places exactly `object(key)[offset : offset + returned_len]` in the caller's
buffer. At offset 4 of the 2-byte object `x` (whose tail chunk is cached),
`offset_in_chunk = 4` exceeds the chunk length 2 and the `size_t`
subtraction `chunk.data.size() - offset_in_chunk` wraps around, so
`to_copy = min(size, 2^64 - 2) = 3` and the `memcpy` reads 3 out-of-bounds
bytes: the call "succeeds" with return value 3, but the object slice
`object("x")[4 : 7]` is empty — no 3-byte buffer can equal it. -/
theorem read_past_eof_returns_nonobject_bytes :
    fuse_read tailObj 0 5 tailCache "x" 3 4
        = some ⟨3, [0, 0, 0], tailCache, [.cacheProbe "x" 0, .touch "x" 0, .copy 3]⟩
      ∧ objectSlice tailObj "x" 4 3 = []
      ∧ ∀ r : ReadOut, r.buf.length = 3 → r.buf ≠ objectSlice tailObj "x" 4 3 := by
  refine ⟨by decide, by decide, ?_⟩
  intro r hlen hcontra
  rw [hcontra] at hlen
  simp [objectSlice, tailObj] at hlen

/-- Claim C3. The claim states that `current_size` always equals the sum of
the byte lengths of the cached chunks, including across `insert_chunk`
calls that replace an existing chunk. `CacheManager::insert_chunk` runs
`current_size_ += data.size()` unconditionally but `chunks[offset] = ...`
overwrites the old chunk without subtracting its size: after inserting 2
bytes and then re-inserting 1 byte at the same `(key, offset)`, the counter
reads 3 while only 1 byte is cached. -/
theorem insert_replace_breaks_size_accounting :
    sizeBugCacheA.current_size = 2 ∧ totalChunkBytes sizeBugCacheA = 2
      ∧ sizeBugCacheB.current_size = 3 ∧ totalChunkBytes sizeBugCacheB = 1 := by
  decide

theorem getE_eq_getElem (l : List QItem) (i : Nat) (h : i < l.length) : getE l i = l[i] := by
  induction l generalizing i with
  | nil => simp at h
  | cons a t ih =>
    cases i with
    | zero => rfl
    | succ j =>
      have hj : j < t.length := by simpa using h
      simpa [getE, List.getD] using ih j hj

/-- In a heap-ordered vector the root carries the numerically smallest
priority value (ties allowed): the transitive parent chain of any index
reaches index 0. -/
theorem heap_root_le (l : List QItem) (h : isHeap l) :
    ∀ i, i < l.length → prioNat (getE l 0).priority ≤ prioNat (getE l i).priority := by
  intro i
  induction i using Nat.strong_induction_on with
  | _ i ih =>
    intro hi
    rcases Nat.eq_zero_or_pos i with h0 | hpos
    · subst h0; exact le_refl _
    · have hlt : (i - 1) / 2 < i := by
        have h1 : (i - 1) / 2 ≤ i - 1 := Nat.div_le_self _ _
        omega
      exact le_trans (ih _ hlt (lt_trans hlt hi)) (h i hi hpos)

/-- Claim C4, amended: the strict-priority half. If the queue's heap vector
satisfies the invariant `std::priority_queue` maintains, the item returned
by `pop` (the heap top) carries a priority at least as urgent (numerically
no larger) than that of every pending item; in particular a pending task of
strictly higher priority than `b` is always returned before `b`. The
FIFO-within-equal-priority half of the claim is refuted by
the separate counterexample: the comparator contains no tie-break and the
binary heap is not stable. -/
theorem queue_pop_returns_max_priority (l : List QItem) (b t : QItem)
    (hheap : isHeap l) (hb : b ∈ l) (ht : heapTop l = some t) :
    prioNat t.priority ≤ prioNat b.priority := by
  obtain ⟨i, hi, rfl⟩ := List.getElem_of_mem hb
  have h0 : 0 < l.length := lt_of_le_of_lt (Nat.zero_le _) hi
  have htop : getE l 0 = t := by
    rw [getE_eq_getElem l 0 h0]
    cases l with
    | nil => simp at h0
    | cons a t' =>
      simp [heapTop] at ht
      simpa using ht
  rw [← htop, ← getE_eq_getElem l i hi]
  exact heap_root_le l hheap i hi

/-- Witness for the amended claim C4 at a concrete heap state. -/
theorem queue_pop_returns_max_priority_witness :
    isHeap fifoHeap ∧ (⟨2, .normal⟩ : QItem) ∈ fifoHeap
      ∧ heapTop fifoHeap = some ⟨4, .urgent⟩
      ∧ prioNat Priority.urgent ≤ prioNat Priority.normal :=
  ⟨by decide, by decide, by decide,
    queue_pop_returns_max_priority fifoHeap ⟨2, .normal⟩ ⟨4, .urgent⟩
      (by decide) (by decide) (by decide)⟩

/-- Counterexample to claim C4 as stated. Push NORMAL tasks 1, 2, 3 and
then URGENT task 4. The first pop returns the URGENT task; the next pop
returns NORMAL task 3 even though NORMAL task 1 — equal priority, pushed
earlier, still pending at that pop instant — should be returned first under
FIFO. `std::priority_queue` (modelled here by the libstdc++ heap
algorithms) keeps no FIFO order between equal priorities. -/
theorem queue_equal_priority_fifo_violated :
    heapTop fifoHeap = some ⟨4, .urgent⟩
      ∧ heapTop fifoHeapPopped = some ⟨3, .normal⟩
      ∧ (⟨1, .normal⟩ : QItem) ∈ fifoHeapPopped := by
  decide

theorem lookupHandle_append (h l : List (Nat × Option Bool)) (id : Nat) (x : Option Bool)
    (hx : lookupHandle h id = some x) : lookupHandle (h ++ l) id = some x := by
  induction h with
  | nil => simp [lookupHandle] at hx
  | cons a t ih =>
    obtain ⟨i, v⟩ := a
    by_cases hi : i = id
    · subst hi
      simpa [lookupHandle] using hx
    · simp [lookupHandle, hi] at hx ⊢
      exact ih hx

/-- Once the pool is dead no transition touches the abandoned handle:
submissions allocate fresh ids, no workers remain to pop, and the flags
only stay set. -/
theorem poolDead_step (s : PoolState) (id : Nat) (op : PoolOp)
    (hd : PoolDead s id) : PoolDead (poolStep s op) id := by
  obtain ⟨hsd, hw, hid, hh⟩ := hd
  cases op with
  | submit k off sz prio =>
    refine ⟨hsd, hw, Nat.lt_succ_of_lt hid, ?_⟩
    exact lookupHandle_append _ _ _ _ hh
  | shutdownSignal => exact ⟨rfl, hw, hid, hh⟩
  | workerRun b =>
    simp only [poolStep, hw, if_pos]
    exact ⟨hsd, hw, hid, hh⟩
  | workerExit =>
    have : ¬ (s.shutdown ∧ s.workers ≠ 0) := by
      intro hc
      exact hc.2 hw
    simp only [poolStep, if_neg this]
    exact ⟨hsd, hw, hid, hh⟩

theorem poolDead_run (s : PoolState) (id : Nat) (hd : PoolDead s id) :
    ∀ ops : List PoolOp, PoolDead (runPool s ops) id := by
  intro ops
  induction ops generalizing s with
  | nil => exact hd
  | cons op rest ih => exact ih (poolStep s op) (poolDead_step s id op hd)

/-- Claim C5. The claim states that after shutdown every handle of a
queued-but-not-started task, and every handle returned by a post-shutdown
submit, resolves to `false`. In the code nothing ever fulfils those
promises: the only `set_value` call sits in `worker_loop` after a pop, so
an abandoned promise is destroyed unset and its `shared_future` ends in
`broken_promise` — waiting on it throws instead of yielding `false`. After
submitting one NORMAL task and shutting the two-worker pool down before any
pop: the task is still queued, its handle is unfulfilled, and it stays
unfulfilled under every possible continuation; a post-shutdown submit
leaves the queue untouched (that part of the claim holds) and its handle
likewise never receives a value. -/
theorem shutdown_leaves_queued_handles_unresolved :
    poolAfterShutdown
        = { queue := [0], shutdown := true, workers := 0, handles := [(0, none)], nextId := 1 }
      ∧ (∀ ops : List PoolOp, lookupHandle (runPool poolAfterShutdown ops).handles 0 = some none)
      ∧ (poolStep poolAfterShutdown (.submit "k2" 0 DEFAULT_CHUNK_SIZE .normal)).queue
          = poolAfterShutdown.queue
      ∧ (∀ ops : List PoolOp,
          lookupHandle
            (runPool (poolStep poolAfterShutdown (.submit "k2" 0 DEFAULT_CHUNK_SIZE .normal))
              ops).handles 1
            = some none) := by
  refine ⟨by decide, ?_, by decide, ?_⟩
  · intro ops
    exact (poolDead_run poolAfterShutdown 0 (by constructor <;> decide) ops).2.2.2
  · intro ops
    refine (poolDead_run _ 1 ?_ ops).2.2.2
    constructor <;> decide

theorem probeChunk_error_no_notify (obj : String → Option (List Nat)) (now : Nat)
    (c : CacheManager) (key : String) (off : Nat) (r : ReadOut) (k : String)
    (h : probeChunk obj now c key off = .error r) :
    FsEvent.notifyPredictor k ∉ r.events := by
  unfold probeChunk at h
  split at h
  · exact Except.noConfusion h
  · split at h
    · injection h with h'
      subst h'
      simp
    · split at h
      · injection h with h'
        subst h'
        simp
      · split at h
        · injection h with h'
          subst h'
          simp
        · exact Except.noConfusion h

theorem probeChunk_ok_no_notify (obj : String → Option (List Nat)) (now : Nat)
    (c : CacheManager) (key : String) (off : Nat) (c1 : CacheManager) (ch : Chunk)
    (ev : List FsEvent) (k : String)
    (h : probeChunk obj now c key off = .ok (c1, ch, ev)) :
    FsEvent.notifyPredictor k ∉ ev := by
  unfold probeChunk at h
  split at h
  · injection h with h'
    have hev : [FsEvent.cacheProbe key off] = ev := congrArg (fun p => p.2.2) h'
    rw [← hev]
    simp
  · split at h
    · exact Except.noConfusion h
    · split at h
      · exact Except.noConfusion h
      · split at h
        · exact Except.noConfusion h
        · injection h with h'
          have hev :
              [FsEvent.cacheProbe key off, FsEvent.urgentFetch key off true,
                FsEvent.cacheProbe key off] = ev := congrArg (fun p => p.2.2) h'
          rw [← hev]
          simp

/-- No execution of `fuse_ops::read` emits a predictor notification: the
function's body contains no `on_file_accessed` call. -/
theorem fuse_read_no_notify :
    ∀ (fuel : Nat) (obj : String → Option (List Nat)) (now : Nat) (c : CacheManager)
      (key : String) (size offset : Nat) (r : ReadOut) (k : String),
      fuse_read obj now fuel c key size offset = some r →
      FsEvent.notifyPredictor k ∉ r.events := by
  intro fuel
  induction fuel with
  | zero =>
    intro obj now c key size offset r k h
    exact Option.noConfusion h
  | succ n ih =>
    intro obj now c key size offset r k h
    rw [fuse_read] at h
    split at h
    · rename_i re hre
      injection h with h'
      subst h'
      exact probeChunk_error_no_notify obj now c key (chunkOff offset) re k hre
    · rename_i c1 ch ev hp
      split at h
      · split at h
        · exact Option.noConfusion h
        · rename_i r' hr'
          split at h
          all_goals
            injection h with h'
            subst h'
            simp only [ReadOut.events, List.mem_append, List.mem_cons, List.mem_singleton]
            push_neg
            refine ⟨⟨probeChunk_ok_no_notify obj now c key (chunkOff offset) c1 ch ev k hp,
              by simp, by simp⟩, ?_⟩
            exact ih obj now (access c1 key (chunkOff offset) now) key _ _ r' k hr'
      · injection h with h'
        subst h'
        simp only [ReadOut.events, List.mem_append, List.mem_cons, List.mem_singleton]
        push_neg
        exact ⟨probeChunk_ok_no_notify obj now c key (chunkOff offset) c1 ch ev k hp,
          by simp, by simp⟩

/-- Counterexample to claim C6 as stated. The claim says every read that
resolves a chunk notifies the predictor with the accessed key after
`touch_access`. This cache-hit read resolves its chunk, returns 2 bytes,
performs the touch — and its event trace contains no predictor
notification for any key: `fuse_ops::read` never calls
`on_file_accessed`. -/
theorem read_resolves_chunk_without_predictor_notify :
    fuse_read tailObj 0 5 tailCache "x" 2 0
        = some ⟨2, [65, 66], tailCache, [.cacheProbe "x" 0, .touch "x" 0, .copy 2]⟩
      ∧ ∀ k, FsEvent.notifyPredictor k ∉ readEvents tailObj 0 5 tailCache "x" 2 0 := by
  refine ⟨by decide, ?_⟩
  intro k
  have he : readEvents tailObj 0 5 tailCache "x" 2 0
      = [.cacheProbe "x" 0, .touch "x" 0, .copy 2] := by decide
  rw [he]
  simp

/-- Claim C6, amended: the predictor notification is issued by
`fuse_ops::open`, not by `fuse_ops::read`. No read execution ever emits a
notification, while every successful (read-only) open notifies the
predictor with the accessed key — so access patterns drive prediction at
open granularity, not per read. -/
theorem predictor_notified_on_open_not_read :
    (∀ (obj : String → Option (List Nat)) (now fuel : Nat) (c : CacheManager)
      (key : String) (size offset : Nat) (k : String),
        FsEvent.notifyPredictor k ∉ readEvents obj now fuel c key size offset)
      ∧ ∀ (p : PredState) (meta : List (String × Nat)) (path : String),
          (fuse_open p meta path true).pred = on_file_accessed p (path_to_s3_key path)
            ∧ FsEvent.notifyPredictor (path_to_s3_key path) ∈ (fuse_open p meta path true).events := by
  constructor
  · intro obj now fuel c key size offset k
    unfold readEvents
    cases hr : fuse_read obj now fuel c key size offset with
    | none => simp
    | some r => exact fuse_read_no_notify fuel obj now c key size offset r k hr
  · intro p meta path
    constructor
    · simp [fuse_open]
    · simp [fuse_open]

theorem issueLoop_in_flight_grows (cc : String → Bool) :
    ∀ (cand : List String) (p : PredState) (k : String),
      k ∈ p.in_flight → k ∈ ((issueLoop cc cand p).1).in_flight := by
  intro cand
  induction cand with
  | nil => intro p k hk; simpa [issueLoop] using hk
  | cons k0 rest ih =>
    intro p k hk
    rw [issueLoop]
    split
    · exact ih p k hk
    · split
      · exact ih p k hk
      · refine ih _ k ?_
        simp [hk]

theorem issueLoop_tasks_shape (cc : String → Bool) :
    ∀ (cand : List String) (p : PredState) (t : Task),
      t ∈ (issueLoop cc cand p).2 →
      t.offset = 0 ∧ t.size = DEFAULT_CHUNK_SIZE ∧ t.priority = .normal
        ∧ t.key ∈ cand ∧ cc t.key = false ∧ t.key ∉ p.in_flight := by
  intro cand
  induction cand with
  | nil =>
    intro p t ht
    simp [issueLoop] at ht
  | cons k0 rest ih =>
    intro p t ht
    rw [issueLoop] at ht
    split at ht
    · obtain ⟨h1, h2, h3, h4, h5, h6⟩ := ih p t ht
      exact ⟨h1, h2, h3, List.mem_cons_of_mem _ h4, h5, h6⟩
    · split at ht
      · obtain ⟨h1, h2, h3, h4, h5, h6⟩ := ih p t ht
        exact ⟨h1, h2, h3, List.mem_cons_of_mem _ h4, h5, h6⟩
      · rename_i hcc hfl
        rcases List.mem_cons.mp ht with rfl | hmem
        · refine ⟨rfl, rfl, rfl, List.mem_cons_self _ _, ?_, hfl⟩
          simpa using hcc
        · obtain ⟨h1, h2, h3, h4, h5, h6⟩ := ih _ t hmem
          refine ⟨h1, h2, h3, List.mem_cons_of_mem _ h4, h5, ?_⟩
          intro hc
          exact h6 (by simp [hc])

theorem issueLoop_keys_nodup (cc : String → Bool) :
    ∀ (cand : List String) (p : PredState),
      ((issueLoop cc cand p).2.map Task.key).Nodup := by
  intro cand
  induction cand with
  | nil =>
    intro p
    simp [issueLoop]
  | cons k0 rest ih =>
    intro p
    rw [issueLoop]
    split
    · exact ih p
    · split
      · exact ih p
      · simp only [List.map_cons, List.nodup_cons]
        refine ⟨?_, ih _⟩
        intro hc
        rcases List.mem_map.mp hc with ⟨t, htmem, htkey⟩
        have h6 := (issueLoop_tasks_shape cc rest _ t htmem).2.2.2.2.2
        exact h6 (by simp [htkey])

theorem issueLoop_complete (cc : String → Bool) :
    ∀ (cand : List String) (p : PredState) (k : String),
      k ∈ cand → cc k = false → k ∉ p.in_flight →
      k ∈ (issueLoop cc cand p).2.map Task.key := by
  intro cand
  induction cand with
  | nil =>
    intro p k hk
    simp at hk
  | cons k0 rest ih =>
    intro p k hk hcc hfl
    rw [issueLoop]
    split
    · rename_i hcck0
      rcases List.mem_cons.mp hk with rfl | hmem
      · rw [hcc] at hcck0
        exact absurd hcck0 (by simp)
      · exact ih p k hmem hcc hfl
    · split
      · rename_i hk0fl
        rcases List.mem_cons.mp hk with rfl | hmem
        · exact absurd hk0fl hfl
        · exact ih p k hmem hcc hfl
      · rcases Decidable.em (k = k0) with rfl | hne
        · simp
        · rcases List.mem_cons.mp hk with rfl | hmem
          · exact absurd rfl hne
          · simp only [List.map_cons, List.mem_cons]
            right
            refine ih _ k hmem hcc ?_
            simp [hfl, hne]



/-- Claim C7, amended: in pattern mode the predictor derives its lookahead
successors by chained width-preserving increment of the *leftmost maximal
digit run of the full key that is immediately followed by a dot* (the
behaviour of the non-greedy regex over the whole key), not of the trailing
digit run of the basename; for each derived key that is neither cached nor
in flight it submits exactly one task at offset 0, size `CHUNK_SIZE`,
priority NORMAL, with no duplicate keys among the submissions. -/
theorem predictor_pattern_prefetch_characterization
    (p : PredState) (k : String) (cc : String → Bool) (hm : p.manifest_mode = false) :
    (∀ t ∈ (predict_and_prefetch p k cc).2,
        t.offset = 0 ∧ t.size = DEFAULT_CHUNK_SIZE ∧ t.priority = .normal
          ∧ t.key ∈ chainNexts k p.lookahead ∧ cc t.key = false ∧ t.key ∉ p.in_flight)
      ∧ ((predict_and_prefetch p k cc).2.map Task.key).Nodup
      ∧ ∀ k', k' ∈ chainNexts k p.lookahead → cc k' = false → k' ∉ p.in_flight →
          k' ∈ (predict_and_prefetch p k cc).2.map Task.key := by
  unfold predict_and_prefetch
  rw [hm]
  simp only [Bool.false_eq_true, if_false]
  split
  · exact ⟨fun t ht =>
        issueLoop_tasks_shape cc (chainNexts k p.lookahead) (bumpPattern (bumpPredictions p)) t ht,
      issueLoop_keys_nodup cc (chainNexts k p.lookahead) (bumpPattern (bumpPredictions p)),
      fun k' h1 h2 h3 =>
        issueLoop_complete cc (chainNexts k p.lookahead) (bumpPattern (bumpPredictions p)) k' h1 h2 h3⟩
  · exact ⟨fun t ht =>
        issueLoop_tasks_shape cc (chainNexts k p.lookahead) (bumpPredictions p) t ht,
      issueLoop_keys_nodup cc (chainNexts k p.lookahead) (bumpPredictions p),
      fun k' h1 h2 h3 =>
        issueLoop_complete cc (chainNexts k p.lookahead) (bumpPredictions p) k' h1 h2 h3⟩

/-- Witness for the amended claim C7: the flagship scenario S5,
`shard_0042.bin` with lookahead 3 and an empty cache, yields exactly
`shard_0043.bin`, `shard_0044.bin`, `shard_0045.bin`. -/
theorem predictor_pattern_prefetch_characterization_witness :
    predInit.manifest_mode = false
      ∧ chainNexts "shard_0042.bin" predInit.lookahead
          = ["shard_0043.bin", "shard_0044.bin", "shard_0045.bin"]
      ∧ ((∀ t ∈ (predict_and_prefetch predInit "shard_0042.bin" noneCached).2,
            t.offset = 0 ∧ t.size = DEFAULT_CHUNK_SIZE ∧ t.priority = .normal
              ∧ t.key ∈ chainNexts "shard_0042.bin" predInit.lookahead
              ∧ noneCached t.key = false ∧ t.key ∉ predInit.in_flight)
          ∧ ((predict_and_prefetch predInit "shard_0042.bin" noneCached).2.map Task.key).Nodup
          ∧ ∀ k', k' ∈ chainNexts "shard_0042.bin" predInit.lookahead →
              noneCached k' = false → k' ∉ predInit.in_flight →
              k' ∈ (predict_and_prefetch predInit "shard_0042.bin" noneCached).2.map Task.key) :=
  ⟨rfl, by decide,
    predictor_pattern_prefetch_characterization predInit "shard_0042.bin" noneCached rfl⟩

/-- Counterexample to claim C7 as stated. The basename of `a1.b2.bin`
decomposes as `a1.b` · `2` · `.bin` with trailing digit run `2`, so the
claim demands successors `a1.b3.bin`, `a1.b4.bin`, `a1.b5.bin`. The code's
regex `^(.*?)(\d+)(\..*)$` instead matches the leftmost digit run followed
by a dot — the `1` — and the predictor submits `a2.b2.bin`, `a3.b2.bin`,
`a4.b2.bin`. -/
theorem predictor_increments_first_dotted_run_not_trailing :
    ((predict_and_prefetch predInit "a1.b2.bin" noneCached).2.map Task.key
        = ["a2.b2.bin", "a3.b2.bin", "a4.b2.bin"])
      ∧ spec_trailing_successors "a1.b2.bin" 3 = ["a1.b3.bin", "a1.b4.bin", "a1.b5.bin"]
      ∧ (["a2.b2.bin", "a3.b2.bin", "a4.b2.bin"] : List String)
          ≠ ["a1.b3.bin", "a1.b4.bin", "a1.b5.bin"] := by decide

theorem issueLoop_last_accessed (cc : String → Bool) :
    ∀ (cand : List String) (p : PredState),
      ((issueLoop cc cand p).1).last_accessed = p.last_accessed := by
  intro cand
  induction cand with
  | nil => intro p; rfl
  | cons k0 rest ih =>
    intro p
    rw [issueLoop]
    split
    · exact ih p
    · split
      · exact ih p
      · exact ih _

theorem predict_and_prefetch_last (p : PredState) (k : String) (cc : String → Bool) :
    ((predict_and_prefetch p k cc).1).last_accessed = p.last_accessed := by
  unfold predict_and_prefetch
  split
  · split
    · rfl
    · split
      · exact issueLoop_last_accessed cc _ _
      · exact issueLoop_last_accessed cc _ _
  · split
    · exact issueLoop_last_accessed cc _ _
    · exact issueLoop_last_accessed cc _ _

/-- Claim C10. `on_file_accessed` overwrites the single `last_accessed_`
slot, so two notifications arriving between sweeps coalesce: the state
after `k1` then `k2` is identical to the state after `k2` alone, hence the
next sweep derives its prefetches only from `k2` and `k1`'s successors are
never enqueued from that notification. The sweep does not clear the slot:
after any sweep `last_accessed_` still holds `k2`, so the latest key is
re-used by every subsequent sweep until a different key is notified. -/
theorem predictor_access_coalesces_to_latest
    (p : PredState) (k1 k2 : String) (ready cc : String → Bool) :
    on_file_accessed (on_file_accessed p k1) k2 = on_file_accessed p k2
      ∧ sweepOnce (on_file_accessed (on_file_accessed p k1) k2) ready cc
          = sweepOnce (on_file_accessed p k2) ready cc
      ∧ ((sweepOnce (on_file_accessed p k2) ready cc).1).last_accessed
          = (on_file_accessed p k2).last_accessed := by
  refine ⟨rfl, rfl, ?_⟩
  unfold sweepOnce
  split
  · rfl
  · exact predict_and_prefetch_last _ _ cc


theorem findFile_updateFile_self (fs : List (String × FileEntry)) (k : String)
    (e e' : FileEntry) (h : findFile fs k = some e) :
    findFile (updateFile fs k e') k = some e' := by
  induction fs with
  | nil => simp [findFile] at h
  | cons a t ih =>
    obtain ⟨k0, e0⟩ := a
    by_cases hk : k0 = k
    · subst hk
      simp [findFile, updateFile]
    · simp only [findFile, updateFile, if_neg hk] at h ⊢
      exact ih h

theorem findFile_updateFile_ne (fs : List (String × FileEntry)) (k k' : String)
    (e' : FileEntry) (hne : k' ≠ k) :
    findFile (updateFile fs k e') k' = findFile fs k' := by
  induction fs with
  | nil => rfl
  | cons a t ih =>
    obtain ⟨k0, e0⟩ := a
    by_cases hk : k0 = k
    · subst hk
      have hne' : k0 ≠ k' := fun hc => hne hc.symm
      simp [findFile, updateFile, hne']
    · simp only [updateFile, if_neg hk, findFile]
      split
      · rfl
      · exact ih

/-- Counterexample to claim C9 as stated. Key `a` has a FileEntry (zone
PREFETCH) when `insert_chunk("a", 0, 3 bytes, HOT)` is called on the full
2-byte cache — but the eviction pass inside `insert_chunk` evicts `a`
itself, and the entry is then recreated from scratch with the *argument*
zone: afterwards `a` is HOT and sits in `hot_lru`, so the zone argument was
not ignored and the zone-list membership changed. -/
theorem insert_chunk_eviction_resurrection_changes_zone :
    get_zone resZoneA "a" = some .prefetch
      ∧ resZoneA.prefetch_fifo = ["a"]
      ∧ contains (evict_if_needed resZoneA 3) "a" = false
      ∧ get_zone resZoneB "a" = some .hot
      ∧ resZoneB.hot_lru = ["a"] ∧ resZoneB.prefetch_fifo = [] := by
  decide

/-- Claim C9, amended: whenever the key still has a FileEntry *after the
eviction pass* of `insert_chunk` (in particular whenever the insertion
needs no eviction), the zone argument is ignored — relative to the
post-eviction state the zone lists are untouched, the entry keeps its zone
and merely gains/replaces the chunk, every other key's entry is unchanged,
and only the chunk map and the size accounting change. -/
theorem insert_chunk_existing_entry_ignores_zone
    (c : CacheManager) (key : String) (off : Nat) (data : List Nat) (zone : CacheZone)
    (now : Nat) (e : FileEntry)
    (he : findFile (evict_if_needed c data.length).files key = some e) :
    (insert_chunk c key off data zone now).hot_lru = (evict_if_needed c data.length).hot_lru
      ∧ (insert_chunk c key off data zone now).prefetch_fifo
          = (evict_if_needed c data.length).prefetch_fifo
      ∧ (insert_chunk c key off data zone now).current_size
          = (evict_if_needed c data.length).current_size + data.length
      ∧ findFile (insert_chunk c key off data zone now).files key
          = some { e with chunks := setChunk e.chunks off ⟨data, now⟩ }
      ∧ ∀ k', k' ≠ key →
          findFile (insert_chunk c key off data zone now).files k'
            = findFile (evict_if_needed c data.length).files k' := by
  unfold insert_chunk insertPhase
  rw [he]
  refine ⟨rfl, rfl, rfl, ?_, ?_⟩
  · exact findFile_updateFile_self _ key e _ he
  · intro k' hk'
    exact findFile_updateFile_ne _ key k' _ hk'

/-- Witness for the amended claim C9: inserting one byte at a fresh offset
of the existing PREFETCH entry `a` (no eviction needed) with zone argument
HOT leaves the entry in PREFETCH with its lists untouched. -/
theorem insert_chunk_existing_entry_ignores_zone_witness :
    findFile (evict_if_needed resZoneA ([4] : List Nat).length).files "a"
        = some ⟨"a", [(0, ⟨[9], 0⟩)], .prefetch⟩
      ∧ ((insert_chunk resZoneA "a" 4 [4] .hot 7).hot_lru
            = (evict_if_needed resZoneA ([4] : List Nat).length).hot_lru
        ∧ (insert_chunk resZoneA "a" 4 [4] .hot 7).prefetch_fifo
            = (evict_if_needed resZoneA ([4] : List Nat).length).prefetch_fifo
        ∧ (insert_chunk resZoneA "a" 4 [4] .hot 7).current_size
            = (evict_if_needed resZoneA ([4] : List Nat).length).current_size
                + ([4] : List Nat).length
        ∧ findFile (insert_chunk resZoneA "a" 4 [4] .hot 7).files "a"
            = some { (⟨"a", [(0, ⟨[9], 0⟩)], .prefetch⟩ : FileEntry) with
                chunks := setChunk [(0, ⟨[9], 0⟩)] 4 ⟨[4], 7⟩ }
        ∧ ∀ k', k' ≠ "a" →
            findFile (insert_chunk resZoneA "a" 4 [4] .hot 7).files k'
              = findFile (evict_if_needed resZoneA ([4] : List Nat).length).files k') :=
  ⟨by decide,
    insert_chunk_existing_entry_ignores_zone resZoneA "a" 4 [4] .hot 7
      ⟨"a", [(0, ⟨[9], 0⟩)], .prefetch⟩ (by decide)⟩


theorem findFile_eq_none_iff (fs : List (String × FileEntry)) (k : String) :
    findFile fs k = none ↔ k ∉ fs.map Prod.fst := by
  induction fs with
  | nil => simp [findFile]
  | cons a t ih =>
    obtain ⟨k0, e0⟩ := a
    by_cases hk : k0 = k
    · subst hk
      simp [findFile]
    · simp [findFile, hk, ih, Ne.symm hk]

theorem findFile_isSome_of_mem (fs : List (String × FileEntry)) (k : String)
    (h : k ∈ fs.map Prod.fst) : ∃ e, findFile fs k = some e := by
  cases hf : findFile fs k with
  | none => exact absurd h ((findFile_eq_none_iff fs k).mp hf)
  | some e => exact ⟨e, rfl⟩

theorem findFile_eraseFile_ne (fs : List (String × FileEntry)) (k k' : String)
    (hne : k' ≠ k) : findFile (eraseFile fs k) k' = findFile fs k' := by
  induction fs with
  | nil => rfl
  | cons a t ih =>
    obtain ⟨k0, e0⟩ := a
    by_cases hk : k0 = k
    · subst hk
      have hne' : k0 ≠ k' := fun hc => hne hc.symm
      simp [eraseFile, findFile, hne']
    · simp only [eraseFile, if_neg hk, findFile]
      split
      · rfl
      · exact ih

theorem eraseFile_keys_sublist (fs : List (String × FileEntry)) (k : String) :
    ((eraseFile fs k).map Prod.fst).Sublist (fs.map Prod.fst) := by
  induction fs with
  | nil => simp [eraseFile]
  | cons a t ih =>
    obtain ⟨k0, e0⟩ := a
    by_cases hk : k0 = k
    · subst hk
      simp [eraseFile]
    · simpa [eraseFile, hk] using ih.cons₂ k0

theorem findFile_eraseFile_self (fs : List (String × FileEntry)) (k : String)
    (hnd : (fs.map Prod.fst).Nodup) : findFile (eraseFile fs k) k = none := by
  induction fs with
  | nil => rfl
  | cons a t ih =>
    obtain ⟨k0, e0⟩ := a
    simp only [List.map_cons, List.nodup_cons] at hnd
    by_cases hk : k0 = k
    · subst hk
      simp only [eraseFile, if_pos rfl]
      rw [findFile_eq_none_iff]
      exact hnd.1
    · simp only [eraseFile, if_neg hk, findFile, if_neg hk]
      exact ih hnd.2

theorem mem_eraseKey (l : List String) (k k' : String) (h : k' ∈ eraseKey l k) : k' ∈ l := by
  induction l with
  | nil => simp [eraseKey] at h
  | cons a t ih =>
    by_cases ha : a = k
    · subst ha
      simp only [eraseKey, if_pos rfl] at h
      exact List.mem_cons_of_mem _ h
    · simp only [eraseKey, if_neg ha] at h
      rcases List.mem_cons.mp h with rfl | hmem
      · exact List.mem_cons_self _ _
      · exact List.mem_cons_of_mem _ (ih hmem)

theorem eraseKey_sublist (l : List String) (k : String) : (eraseKey l k).Sublist l := by
  induction l with
  | nil => simp [eraseKey]
  | cons a t ih =>
    by_cases ha : a = k
    · subst ha
      simp only [eraseKey, if_pos rfl]
      exact List.sublist_cons_self a t
    · simpa [eraseKey, ha] using ih.cons₂ a

theorem nodup_eraseKey (l : List String) (k : String) (h : l.Nodup) :
    (eraseKey l k).Nodup :=
  h.sublist (eraseKey_sublist l k)

theorem not_mem_eraseKey_self (l : List String) (k : String) (h : l.Nodup) :
    k ∉ eraseKey l k := by
  induction l with
  | nil => simp [eraseKey]
  | cons a t ih =>
    simp only [List.nodup_cons] at h
    by_cases ha : a = k
    · subst ha
      simpa [eraseKey] using h.1
    · simp only [eraseKey, if_neg ha, List.mem_cons]
      push_neg
      exact ⟨fun hc => ha hc.symm, ih h.2⟩

theorem findFile_append_single (fs : List (String × FileEntry)) (k0 : String)
    (e0 : FileEntry) (k : String) :
    findFile (fs ++ [(k0, e0)]) k
      = match findFile fs k with
        | some e => some e
        | none => if k0 = k then some e0 else none := by
  induction fs with
  | nil => rfl
  | cons a t ih =>
    obtain ⟨k1, e1⟩ := a
    by_cases hk : k1 = k
    · subst hk
      simp [findFile]
    · simp only [List.cons_append, findFile, if_neg hk]
      exact ih

theorem updateFile_keys (fs : List (String × FileEntry)) (k : String) (e : FileEntry) :
    (updateFile fs k e).map Prod.fst = fs.map Prod.fst := by
  induction fs with
  | nil => rfl
  | cons a t ih =>
    obtain ⟨k1, e1⟩ := a
    by_cases hk : k1 = k
    · subst hk
      simp [updateFile]
    · simp [updateFile, hk, ih]


theorem scanChunks_some (k : String) :
    ∀ (cs : List (Nat × Chunk)) (acc : Option String × Nat) (k' : String),
      (scanChunks k cs acc).1 = some k' → k' = k ∨ acc.1 = some k' := by
  intro cs
  induction cs with
  | nil => intro acc k' h; exact Or.inr h
  | cons a t ih =>
    intro acc k' h
    obtain ⟨o, ch⟩ := a
    obtain ⟨cur, oldest⟩ := acc
    rw [scanChunks] at h
    split at h
    · rcases ih _ k' h with h1 | h2
      · exact Or.inl h1
      · exact Or.inl (Option.some_injective _ h2).symm
    · exact ih _ k' h

theorem scanLru_mem (files : List (String × FileEntry)) :
    ∀ (l : List String) (acc : Option String × Nat) (k' : String),
      (scanLru files l acc).1 = some k' → k' ∈ l ∨ acc.1 = some k' := by
  intro l
  induction l with
  | nil => intro acc k' h; exact Or.inr h
  | cons a t ih =>
    intro acc k' h
    rw [scanLru] at h
    split at h
    · rcases ih _ k' h with h1 | h2
      · exact Or.inl (List.mem_cons_of_mem _ h1)
      · exact Or.inr h2
    · rcases ih _ k' h with h1 | h2
      · exact Or.inl (List.mem_cons_of_mem _ h1)
      · rcases scanChunks_some a _ _ k' h2 with rfl | h3
        · exact Or.inl (List.mem_cons_self _ _)
        · exact Or.inr h3

theorem evict_fifo_prefetch_inv (c : CacheManager) (hc : CacheInv c) :
    CacheInv (evict_fifo_prefetch c) := by
  unfold evict_fifo_prefetch
  split
  · exact hc
  · rename_i k0 rest hfifo
    have hnd := hc.fifoNodup
    rw [hfifo] at hnd
    simp only [List.nodup_cons] at hnd
    have hk0fifo : k0 ∈ c.prefetch_fifo := by
      rw [hfifo]; exact List.mem_cons_self _ _
    obtain ⟨e0, he0, hz0⟩ := hc.fifoZone k0 hk0fifo
    have hk0nothot : k0 ∉ c.hot_lru := by
      intro hmem
      obtain ⟨e1, he1, hz1⟩ := hc.hotZone k0 hmem
      rw [he0] at he1
      injection he1 with he1
      subst he1
      rw [hz0] at hz1
      exact CacheZone.noConfusion hz1
    split
    · refine ⟨?_, hc.hotNodup, hnd.2, ?_, ?_⟩
      · exact hc.filesNodup.sublist (eraseFile_keys_sublist c.files k0)
      · intro k hk
        obtain ⟨e, he, hz⟩ := hc.hotZone k hk
        have hne : k ≠ k0 := fun hcontra => hk0nothot (hcontra ▸ hk)
        exact ⟨e, (findFile_eraseFile_ne c.files k0 k hne).symm ▸ he, hz⟩
      · intro k hk
        have hkfifo : k ∈ c.prefetch_fifo := by rw [hfifo]; exact List.mem_cons_of_mem _ hk
        obtain ⟨e, he, hz⟩ := hc.fifoZone k hkfifo
        have hne : k ≠ k0 := fun hcontra => hnd.1 (hcontra ▸ hk)
        exact ⟨e, (findFile_eraseFile_ne c.files k0 k hne).symm ▸ he, hz⟩
    · refine ⟨hc.filesNodup, hc.hotNodup, hnd.2, hc.hotZone, ?_⟩
      intro k hk
      exact hc.fifoZone k (by rw [hfifo]; exact List.mem_cons_of_mem _ hk)

theorem evict_lru_hot_inv (c : CacheManager) (hc : CacheInv c) :
    CacheInv (evict_lru_hot c) := by
  unfold evict_lru_hot
  split
  · exact hc
  · rename_i k0 hscan
    split
    · exact hc
    · split
      · rename_i hne e0 he0
        have hk0hot : k0 ∈ c.hot_lru := by
          rcases scanLru_mem c.files c.hot_lru (none, UINT64_MAX) k0 hscan with h1 | h2
          · exact h1
          · exact Option.noConfusion h2
        have hk0notfifo : k0 ∉ c.prefetch_fifo := by
          intro hmem
          obtain ⟨e1, he1, hz1⟩ := hc.fifoZone k0 hmem
          obtain ⟨e2, he2, hz2⟩ := hc.hotZone k0 hk0hot
          rw [he1] at he2
          injection he2 with he2
          subst he2
          rw [hz1] at hz2
          exact CacheZone.noConfusion hz2
        refine ⟨?_, ?_, hc.fifoNodup, ?_, ?_⟩
        · exact hc.filesNodup.sublist (eraseFile_keys_sublist c.files k0)
        · exact nodup_eraseKey _ _ hc.hotNodup
        · intro k hk
          have hkhot : k ∈ c.hot_lru := mem_eraseKey _ _ _ hk
          obtain ⟨e, he, hz⟩ := hc.hotZone k hkhot
          have hkne : k ≠ k0 := by
            intro hcontra
            subst hcontra
            exact not_mem_eraseKey_self _ _ hc.hotNodup hk
          exact ⟨e, (findFile_eraseFile_ne c.files k0 k hkne).symm ▸ he, hz⟩
        · intro k hk
          obtain ⟨e, he, hz⟩ := hc.fifoZone k hk
          have hkne : k ≠ k0 := fun hcontra => hk0notfifo (hcontra ▸ hk)
          exact ⟨e, (findFile_eraseFile_ne c.files k0 k hkne).symm ▸ he, hz⟩
      · exact hc

theorem evictLoop_inv : ∀ (fuel : Nat) (c : CacheManager) (req : Nat),
    CacheInv c → CacheInv (evictLoop fuel c req) := by
  intro fuel
  induction fuel with
  | zero => intro c req hc; exact hc
  | succ n ih =>
    intro c req hc
    rw [evictLoop]
    split
    · split
      · exact ih _ req (evict_fifo_prefetch_inv c hc)
      · split
        · split
          · exact ih _ req (evict_lru_hot_inv c hc)
          · exact evict_lru_hot_inv c hc
        · exact hc
    · exact hc

theorem evict_if_needed_inv (c : CacheManager) (req : Nat) (hc : CacheInv c) :
    CacheInv (evict_if_needed c req) :=
  evictLoop_inv _ c req hc

theorem evict_fifo_prefetch_find (c : CacheManager) (hc : CacheInv c) (k : String)
    (e : FileEntry) (h : findFile (evict_fifo_prefetch c).files k = some e) :
    findFile c.files k = some e := by
  unfold evict_fifo_prefetch at h
  split at h
  · exact h
  · rename_i k0 rest hfifo
    split at h
    · simp only at h
      by_cases hne : k = k0
      · subst hne
        rw [findFile_eraseFile_self c.files k hc.filesNodup] at h
        exact Option.noConfusion h
      · rwa [findFile_eraseFile_ne c.files k0 k hne] at h
    · exact h

theorem evict_lru_hot_find (c : CacheManager) (hc : CacheInv c) (k : String)
    (e : FileEntry) (h : findFile (evict_lru_hot c).files k = some e) :
    findFile c.files k = some e := by
  unfold evict_lru_hot at h
  split at h
  · exact h
  · rename_i k0 hscan
    split at h
    · exact h
    · split at h
      · simp only at h
        by_cases hne : k = k0
        · subst hne
          rw [findFile_eraseFile_self c.files k hc.filesNodup] at h
          exact Option.noConfusion h
        · rwa [findFile_eraseFile_ne c.files k0 k hne] at h
      · exact h

theorem evictLoop_find : ∀ (fuel : Nat) (c : CacheManager) (req : Nat) (k : String)
    (e : FileEntry), CacheInv c →
    findFile (evictLoop fuel c req).files k = some e → findFile c.files k = some e := by
  intro fuel
  induction fuel with
  | zero => intro c req k e _ h; exact h
  | succ n ih =>
    intro c req k e hc h
    rw [evictLoop] at h
    split at h
    · split at h
      · exact evict_fifo_prefetch_find c hc k e
          (ih _ req k e (evict_fifo_prefetch_inv c hc) h)
      · split at h
        · split at h
          · exact evict_lru_hot_find c hc k e
              (ih _ req k e (evict_lru_hot_inv c hc) h)
          · exact evict_lru_hot_find c hc k e h
        · exact h
    · exact h

theorem evict_if_needed_find (c : CacheManager) (req : Nat) (k : String) (e : FileEntry)
    (hc : CacheInv c) (h : findFile (evict_if_needed c req).files k = some e) :
    findFile c.files k = some e :=
  evictLoop_find _ c req k e hc h



theorem nodup_snoc {l : List String} {x : String} (h : l.Nodup) (hx : x ∉ l) :
    (l ++ [x]).Nodup := by
  refine List.Nodup.append h (List.nodup_singleton x) ?_
  intro a ha hb
  rw [List.mem_singleton] at hb
  subst hb
  exact hx ha

theorem getLast?_snoc (l : List String) (x : String) : (l ++ [x]).getLast? = some x := by
  induction l with
  | nil => rfl
  | cons a t ih =>
    rw [List.cons_append, List.getLast?_cons]
    simp [ih]

theorem insertPhase_inv (c : CacheManager) (key : String) (off : Nat) (data : List Nat)
    (zone : CacheZone) (now : Nat) (hc : CacheInv c) :
    CacheInv (insertPhase c key off data zone now) := by
  unfold insertPhase
  split
  · rename_i hnone
    have hkey : key ∉ c.files.map Prod.fst := (findFile_eq_none_iff _ _).mp hnone
    have hkeyhot : key ∉ c.hot_lru := by
      intro hmem
      obtain ⟨e, he, _⟩ := hc.hotZone key hmem
      rw [hnone] at he
      exact Option.noConfusion he
    have hkeyfifo : key ∉ c.prefetch_fifo := by
      intro hmem
      obtain ⟨e, he, _⟩ := hc.fifoZone key hmem
      rw [hnone] at he
      exact Option.noConfusion he
    have hfilesnd : ((c.files ++ [(key, (⟨key, [(off, ⟨data, now⟩)], zone⟩ : FileEntry))]).map
        Prod.fst).Nodup := by
      rw [List.map_append]
      exact nodup_snoc hc.filesNodup hkey
    have hfindnew : ∀ k, findFile (c.files ++ [(key, (⟨key, [(off, ⟨data, now⟩)], zone⟩ :
        FileEntry))]) k
        = match findFile c.files k with
          | some e => some e
          | none => if key = k then some (⟨key, [(off, ⟨data, now⟩)], zone⟩ : FileEntry)
                    else none := fun k => findFile_append_single c.files key _ k
    cases zone with
    | hot =>
      refine ⟨hfilesnd, ?_, ?_, ?_, ?_⟩
      · simpa using nodup_snoc hc.hotNodup hkeyhot
      · simpa using hc.fifoNodup
      · intro k hk
        simp only [if_pos rfl] at hk
        rcases List.mem_append.mp hk with hk1 | hk2
        · obtain ⟨e, he, hz⟩ := hc.hotZone k hk1
          refine ⟨e, ?_, hz⟩
          rw [hfindnew k, he]
        · rw [List.mem_singleton] at hk2
          subst hk2
          refine ⟨⟨k, [(off, ⟨data, now⟩)], .hot⟩, ?_, rfl⟩
          rw [hfindnew k, hnone]
          simp
      · intro k hk
        simp only [reduceCtorEq, if_false] at hk
        obtain ⟨e, he, hz⟩ := hc.fifoZone k hk
        refine ⟨e, ?_, hz⟩
        rw [hfindnew k, he]
    | prefetch =>
      refine ⟨hfilesnd, ?_, ?_, ?_, ?_⟩
      · simpa using hc.hotNodup
      · simpa using nodup_snoc hc.fifoNodup hkeyfifo
      · intro k hk
        simp only [reduceCtorEq, if_false] at hk
        obtain ⟨e, he, hz⟩ := hc.hotZone k hk
        refine ⟨e, ?_, hz⟩
        rw [hfindnew k, he]
      · intro k hk
        simp only [if_pos rfl] at hk
        rcases List.mem_append.mp hk with hk1 | hk2
        · obtain ⟨e, he, hz⟩ := hc.fifoZone k hk1
          refine ⟨e, ?_, hz⟩
          rw [hfindnew k, he]
        · rw [List.mem_singleton] at hk2
          subst hk2
          refine ⟨⟨k, [(off, ⟨data, now⟩)], .prefetch⟩, ?_, rfl⟩
          rw [hfindnew k, hnone]
          simp
  · rename_i e he
    refine ⟨?_, hc.hotNodup, hc.fifoNodup, ?_, ?_⟩
    · rw [updateFile_keys]
      exact hc.filesNodup
    · intro k hk
      obtain ⟨e1, he1, hz1⟩ := hc.hotZone k hk
      by_cases hkk : k = key
      · subst hkk
        rw [he] at he1
        injection he1 with he1
        subst he1
        exact ⟨_, findFile_updateFile_self c.files k e _ he, hz1⟩
      · exact ⟨e1, (findFile_updateFile_ne c.files key k _ hkk).symm ▸ he1, hz1⟩
    · intro k hk
      obtain ⟨e1, he1, hz1⟩ := hc.fifoZone k hk
      by_cases hkk : k = key
      · subst hkk
        rw [he] at he1
        injection he1 with he1
        subst he1
        exact ⟨_, findFile_updateFile_self c.files k e _ he, hz1⟩
      · exact ⟨e1, (findFile_updateFile_ne c.files key k _ hkk).symm ▸ he1, hz1⟩

theorem insert_chunk_inv (c : CacheManager) (key : String) (off : Nat) (data : List Nat)
    (zone : CacheZone) (now : Nat) (hc : CacheInv c) :
    CacheInv (insert_chunk c key off data zone now) :=
  insertPhase_inv _ key off data zone now (evict_if_needed_inv c data.length hc)

theorem access_inv (c : CacheManager) (key : String) (off now : Nat) (hc : CacheInv c) :
    CacheInv (access c key off now) := by
  unfold access
  split
  · exact hc
  · rename_i e he
    split
    · rename_i hz
      have hzp : e.zone = .prefetch := hz
      have hkeyhot : key ∉ c.hot_lru := by
        intro hmem
        obtain ⟨e1, he1, hz1⟩ := hc.hotZone key hmem
        rw [he] at he1
        injection he1 with he1
        subst he1
        rw [hzp] at hz1
        exact CacheZone.noConfusion hz1
      refine ⟨?_, ?_, ?_, ?_, ?_⟩
      · rw [updateFile_keys]
        exact hc.filesNodup
      · exact nodup_snoc hc.hotNodup hkeyhot
      · exact nodup_eraseKey _ _ hc.fifoNodup
      · intro k hk
        rcases List.mem_append.mp hk with hk1 | hk2
        · have hkk : k ≠ key := fun hcontra => hkeyhot (hcontra ▸ hk1)
          obtain ⟨e1, he1, hz1⟩ := hc.hotZone k hk1
          exact ⟨e1, (findFile_updateFile_ne c.files key k _ hkk).symm ▸ he1, hz1⟩
        · rw [List.mem_singleton] at hk2
          subst hk2
          exact ⟨_, findFile_updateFile_self c.files k e _ he, rfl⟩
      · intro k hk
        have hkfifo := mem_eraseKey _ _ _ hk
        have hkk : k ≠ key := by
          intro hcontra
          subst hcontra
          exact not_mem_eraseKey_self _ _ hc.fifoNodup hk
        obtain ⟨e1, he1, hz1⟩ := hc.fifoZone k hkfifo
        exact ⟨e1, (findFile_updateFile_ne c.files key k _ hkk).symm ▸ he1, hz1⟩
    · rename_i hz
      refine ⟨?_, hc.hotNodup, hc.fifoNodup, ?_, ?_⟩
      · rw [updateFile_keys]
        exact hc.filesNodup
      · intro k hk
        obtain ⟨e1, he1, hz1⟩ := hc.hotZone k hk
        by_cases hkk : k = key
        · subst hkk
          rw [he] at he1
          injection he1 with he1
          subst he1
          exact ⟨accessEntry e off now, findFile_updateFile_self c.files k e _ he, hz1⟩
        · exact ⟨e1, (findFile_updateFile_ne c.files key k _ hkk).symm ▸ he1, hz1⟩
      · intro k hk
        obtain ⟨e1, he1, hz1⟩ := hc.fifoZone k hk
        by_cases hkk : k = key
        · subst hkk
          rw [he] at he1
          injection he1 with he1
          subst he1
          exact ⟨accessEntry e off now, findFile_updateFile_self c.files k e _ he, hz1⟩
        · exact ⟨e1, (findFile_updateFile_ne c.files key k _ hkk).symm ▸ he1, hz1⟩

theorem emptyCache_inv (max : Nat) : CacheInv (emptyCache max) := by
  refine ⟨?_, ?_, ?_, ?_, ?_⟩ <;> simp [emptyCache]

theorem applyCacheOp_inv (c : CacheManager) (op : CacheOp) (hc : CacheInv c) :
    CacheInv (applyCacheOp c op) := by
  cases op with
  | insert k off data z now => exact insert_chunk_inv c k off data z now hc
  | touch k off now => exact access_inv c k off now hc

theorem runCache_inv (c : CacheManager) (ops : List CacheOp) (hc : CacheInv c) :
    CacheInv (runCache c ops) := by
  induction ops generalizing c with
  | nil => exact hc
  | cons op rest ih => exact ih (applyCacheOp c op) (applyCacheOp_inv c op hc)

theorem reachable_cacheInv (c : CacheManager) (h : ReachableCache c) : CacheInv c := by
  obtain ⟨max, ops, rfl⟩ := h
  exact runCache_inv _ ops (emptyCache_inv max)


theorem accessEntry_zone (e : FileEntry) (off now : Nat) :
    (accessEntry e off now).zone = e.zone := rfl

/-- Claim C8. For every reachable cache state and key `k` cached in zone
PREFETCH, `touch_access(k, off)` leaves `k` in zone HOT, removes it from
`prefetch_fifo`, and appends it at the tail of `hot_lru`. The reverse
transition never occurs within an entry's lifetime: `access` keeps a HOT
key HOT, and `insert_chunk` keeps a HOT key HOT whenever its entry survives
the eviction pass (an entry evicted and recreated inside `insert_chunk` is
a new entry — see the separate C9 analysis). -/
theorem touch_access_promotes_prefetch_to_hot
    (c : CacheManager) (hreach : ReachableCache c) (k : String) (off now : Nat) :
    (get_zone c k = some .prefetch →
        get_zone (access c k off now) k = some .hot
          ∧ k ∉ (access c k off now).prefetch_fifo
          ∧ (access c k off now).hot_lru.getLast? = some k)
      ∧ (get_zone c k = some .hot → get_zone (access c k off now) k = some .hot)
      ∧ ∀ (off2 : Nat) (data : List Nat) (zone : CacheZone) (now2 : Nat) (e : FileEntry),
          get_zone c k = some .hot →
          findFile (evict_if_needed c data.length).files k = some e →
          get_zone (insert_chunk c k off2 data zone now2) k = some .hot := by
  have hc := reachable_cacheInv c hreach
  refine ⟨?_, ?_, ?_⟩
  · intro hzp
    unfold get_zone at hzp
    cases hfe : findFile c.files k with
    | none =>
      rw [hfe] at hzp
      exact Option.noConfusion hzp
    | some e =>
      rw [hfe] at hzp
      simp only [Option.map_some'] at hzp
      injection hzp with hzp
      unfold access
      simp only [hfe, accessEntry_zone, hzp, if_pos]
      refine ⟨?_, ?_, ?_⟩
      · unfold get_zone
        rw [findFile_updateFile_self c.files k e _ hfe]
        rfl
      · exact not_mem_eraseKey_self _ _ hc.fifoNodup
      · exact getLast?_snoc c.hot_lru k
  · intro hzh
    unfold get_zone at hzh
    cases hfe : findFile c.files k with
    | none =>
      rw [hfe] at hzh
      exact Option.noConfusion hzh
    | some e =>
      rw [hfe] at hzh
      simp only [Option.map_some'] at hzh
      injection hzh with hzh
      unfold access
      simp only [hfe, accessEntry_zone, hzh]
      simp only [reduceCtorEq, if_false]
      unfold get_zone
      rw [findFile_updateFile_self c.files k e _ hfe]
      simp [accessEntry_zone, hzh]
  · intro off2 data zone now2 e hzh he
    have he0 : findFile c.files k = some e :=
      evict_if_needed_find c data.length k e hc he
    unfold get_zone at hzh
    rw [he0] at hzh
    simp only [Option.map_some'] at hzh
    injection hzh with hzh
    unfold insert_chunk insertPhase
    rw [he]
    unfold get_zone
    rw [findFile_updateFile_self _ k e _ he]
    simp [hzh]

/-- Witness for claim C8: a reachable cache holding `z` as PREFETCH, with
the promotion conclusions evaluated at `touch_access("z", 0)`. -/
theorem touch_access_promotes_prefetch_to_hot_witness :
    ReachableCache promoCache
      ∧ (get_zone (access promoCache "z" 0 1) "z" = some .hot
        ∧ "z" ∉ (access promoCache "z" 0 1).prefetch_fifo
        ∧ (access promoCache "z" 0 1).hot_lru.getLast? = some "z") :=
  ⟨⟨100, [.insert "z" 0 [7] .prefetch 0], rfl⟩,
    (touch_access_promotes_prefetch_to_hot promoCache
        ⟨100, [.insert "z" 0 [7] .prefetch 0], rfl⟩ "z" 0 1).1 (by decide)⟩


end Valkyrie
